import Mathlib

/-!
Verification of the table-sink engine (`src/table_sink.py`, class `TableSink`):
a shallow embedding of its state, its ingestion/eviction logic, its layout
computation and its terminal repaint protocol, together with theorems about
the behaviours the specification describes.

Python dicts are embedded as association lists with first-match lookup
(`getEntry`), in-place-update-or-append assignment (`setEntry`) and
first-match deletion (`delEntry`): a Python dict has unique keys and
preserves insertion order, which is exactly what these operations maintain.
Python floats are embedded as rationals; `f"{v:.pf}"` is embedded as
fixed-point formatting by rounding to the nearest multiple of `10 ^ (-p)`
(the binary-float tie-breaking of CPython is below the resolution of every
property proved here).
-/

namespace TableSink

/-- A cell value attached to an event: the tagged variant the spec's data
model describes (absent, text, integer scalar, floating-point number). -/
inductive Value where
  | vnone
  | vstr (s : String)
  | vint (n : Int)
  | vfloat (q : Rat)
  deriving DecidableEq, Repr

/-- Keys of an association list, in order (the key view of a Python dict). -/
def keysOf {α β : Type} (d : List (α × β)) : List α :=
  d.map Prod.fst

/-- First-match lookup: `d[k]` / `k in d` / `d.get(k)` on a Python dict. -/
def getEntry {α β : Type} [DecidableEq α] (d : List (α × β)) (k : α) : Option β :=
  match d with
  | [] => Option.none
  | (k', v) :: t => if k' = k then Option.some v else getEntry t k

/-- Dict assignment `d[k] = v`: update in place when the key is present
(its position is preserved), append at the end otherwise. -/
def setEntry {α β : Type} [DecidableEq α] (d : List (α × β)) (k : α) (v : β) :
    List (α × β) :=
  match d with
  | [] => [(k, v)]
  | (k', v') :: t => if k' = k then (k, v) :: t else (k', v') :: setEntry t k v

/-- Dict deletion `del d[k]`: removes the first entry carrying the key
(for the unique-key lists that embed dicts, the only one). -/
def delEntry {α β : Type} [DecidableEq α] (d : List (α × β)) (k : α) :
    List (α × β) :=
  match d with
  | [] => []
  | (k', v') :: t => if k' = k then t else (k', v') :: delEntry t k

/-- `TableSink.LEVEL_COLORS`: the static level-to-ANSI-code map. -/
def LEVEL_COLORS : List (String × String) :=
  [("TRACE", "\x1b[36m"), ("DEBUG", "\x1b[34m"), ("INFO", "\x1b[37m"),
   ("SUCCESS", "\x1b[32m"), ("WARNING", "\x1b[33m"), ("ERROR", "\x1b[31m"),
   ("CRITICAL", "\x1b[31;1m")]

/-- `TableSink.RESET`. -/
def RESET : String := "\x1b[0m"

/-- The constructor arguments of `TableSink.__init__` (the construction-time
configuration surface; `max_rows` keeps Python's `Optional[int]` type). -/
structure Config where
  key_column : String
  float_precision : Nat
  max_rows : Option Int
  colorize : Bool
  deriving DecidableEq, Repr

/-- The mutable state `__init__` creates: column registry, row storage,
per-row level map, row order, the unused `header_printed` flag, the repaint
line counter and the finalization flag. -/
structure SinkState where
  columns : List String
  rows : List (Value × List (String × Value))
  row_levels : List (Value × String)
  row_order : List Value
  header_printed : Bool
  last_line_count : Nat
  finished : Bool
  deriving DecidableEq, Repr

/-- The freshly-constructed state (`__init__`'s field initializers). -/
def initState : SinkState :=
  { columns := [], rows := [], row_levels := [], row_order := [],
    header_printed := false, last_line_count := 0, finished := false }

/-- Fixed-point decimal rendering of a rational: the embedding of
`f"{value:.{p}f}"` (round to `p` decimal places, keep the sign even on a
negative value that rounds to zero, no decimal point when `p = 0`). -/
def formatFixed (prec : Nat) (q : Rat) : String :=
  let scaled : Int := round (q * (10 : Rat) ^ prec)
  let neg : Bool := decide (scaled < 0) || (decide (scaled = 0) && decide (q < 0))
  let a : Nat := scaled.natAbs
  let ip : Nat := a / 10 ^ prec
  let fp : Nat := a % 10 ^ prec
  let fps : String := toString fp
  let fpPad : String := String.mk (List.replicate (prec - fps.length) '0') ++ fps
  (if neg then "-" else "") ++ toString ip ++ (if prec = 0 then "" else "." ++ fpPad)

/-- `TableSink._format_value`: `None` and the empty string render blank,
floats render fixed-point at the configured precision, every other scalar
renders via its natural string form. -/
def formatValue (prec : Nat) : Value → String
  | Value.vnone => ""
  | Value.vstr s => s
  | Value.vint n => toString n
  | Value.vfloat q => formatFixed prec q

/-- `TableSink._update_columns`: prepend the key column the first time it is
seen (it is in `data` on every call the ingestion guard lets through), then
append any still-unseen key of `data` in `data`'s own order. -/
def updateColumns (keyCol : String) (cols : List String)
    (data : List (String × Value)) : List String :=
  let cols1 :=
    if keyCol ∈ cols then cols
    else if keyCol ∈ keysOf data then keyCol :: cols
    else cols
  data.foldl (fun cs kv => if kv.1 ∈ cs then cs else cs ++ [kv.1]) cols1

/-- The per-column computation of `TableSink._calculate_column_widths`:
start from the header's length, fold every stored row's formatted value for
the column over `max` (rows lacking the column leave the accumulator
untouched), then add the fixed padding of 2. -/
def columnWidth (prec : Nat) (rowsVals : List (List (String × Value)))
    (col : String) : Nat :=
  (rowsVals.foldl
    (fun w rd =>
      match getEntry rd col with
      | Option.some v => max w (formatValue prec v).length
      | Option.none => w)
    col.length) + 2

/-- Python's `sep.join(parts)`. -/
def joinSep (sep : String) : List String → String
  | [] => ""
  | [x] => x
  | x :: y :: xs => x ++ sep ++ joinSep sep (y :: xs)

/-- `TableSink._build_separator`: one dash run per column, joined by a dash. -/
def buildSeparator (cols : List String) (widths : String → Nat) : String :=
  joinSep "─" (cols.map fun col => String.mk (List.replicate (widths col) '─'))

/-- Python's `str.rjust` with the space fill character. -/
def rjust (s : String) (n : Nat) : String :=
  String.mk (List.replicate (n - s.length) ' ') ++ s

/-- `TableSink._build_row`: right-justify each cell's formatted value (a
missing cell defaults to the empty string), join with single spaces inside a
one-space margin, and wrap the whole line in the level's ANSI color exactly
when a color code was found and colorizing is on. -/
def buildRow (colorize : Bool) (prec : Nat) (cols : List String)
    (data : List (String × Value)) (widths : String → Nat)
    (colorCode : String) : String :=
  let parts := cols.map fun col =>
    let value := formatValue prec ((getEntry data col).getD (Value.vstr ""))
    rjust value (widths col - 1) ++ " "
  let rowContent := " " ++ joinSep " " parts ++ " "
  if colorCode ≠ "" ∧ colorize then colorCode ++ rowContent ++ RESET
  else rowContent

/-- Sequential `line + "\n"` writes into the `StringIO` buffer. -/
def concatLines : List String → String
  | [] => ""
  | l :: ls => l ++ "\n" ++ concatLines ls

/-- Occurrences of a character in a string (`str.count` for a single
character); `table_str.count("\n")` is `charCount '\n'`. -/
def charCount (c : Char) (s : String) : Nat :=
  s.data.count c

/-- `table_str.count("\n")`. -/
def countNewlines (s : String) : Nat :=
  charCount '\n' s

/-- The text block `TableSink._render_table` accumulates in its `StringIO`:
top border, header row (column names as cell values), header separator, one
line per key of `row_order` (level looked up with default `"INFO"`, color
looked up with default `""`), and a closing border exactly when `final`. -/
def renderTableString (cfg : Config) (st : SinkState) (final : Bool) : String :=
  let widths := fun col => columnWidth cfg.float_precision (st.rows.map Prod.snd) col
  let sep := buildSeparator st.columns widths
  let headerData := st.columns.map fun col => (col, Value.vstr col)
  let header := buildRow cfg.colorize cfg.float_precision st.columns headerData widths ""
  let dataLines := st.row_order.map fun key =>
    let rowData := (getEntry st.rows key).getD []
    let level := (getEntry st.row_levels key).getD "INFO"
    let colorCode := (getEntry LEVEL_COLORS level).getD ""
    buildRow cfg.colorize cfg.float_precision st.columns rowData widths colorCode
  sep ++ "\n" ++ header ++ "\n" ++ sep ++ "\n"
    ++ concatLines dataLines
    ++ (if final then sep ++ "\n" else "")

/-- One terminal side effect of the sink. -/
inductive TermOut where
  | cursorUp (n : Nat)
  | clearToEnd
  | write (s : String)
  | flush
  deriving DecidableEq, Repr

/-- `TableSink._clear_lines`: cursor-up-n plus clear-to-end-of-screen, and
nothing at all when `n = 0`. -/
def clearLines (n : Nat) : List TermOut :=
  if n > 0 then [TermOut.cursorUp n, TermOut.clearToEnd] else []

/-- The erase/write/flush/record tail of `TableSink._render_table`: clear as
many lines as the previous paint recorded, write the new block, flush, and
record the new block's newline count for the next erase. -/
def renderTable (cfg : Config) (st : SinkState) (final : Bool) :
    SinkState × List TermOut :=
  let tableStr := renderTableString cfg st final
  ({ st with last_line_count := countNewlines tableStr },
   clearLines st.last_line_count ++ [TermOut.write tableStr, TermOut.flush])

/-- The truthiness test `if self.max_rows and len(row_order) > self.max_rows`:
`None` and `0` are falsy, otherwise compare. -/
def maxRowsExceeded (maxRows : Option Int) (n : Nat) : Bool :=
  match maxRows with
  | Option.none => false
  | Option.some m => if m = 0 then false else decide ((n : Int) > m)

/-- The state mutation of `TableSink.__call__` once the event passed the
guards, given the extracted key value: register columns; for a fresh key
append it to `row_order` and, when the cap is now exceeded, pop the oldest
key and purge its row and level; finally store the row and its level.
(`headD keyValue` reads the head of `row_order ++ [keyValue]`, which is
never empty.) -/
def upsert (cfg : Config) (st : SinkState) (msg_extra : List (String × Value))
    (msg_level : String) (keyValue : Value) : SinkState :=
  let columns := updateColumns cfg.key_column st.columns msg_extra
  if (getEntry st.rows keyValue).isSome then
    { st with columns := columns,
              rows := setEntry st.rows keyValue msg_extra,
              row_levels := setEntry st.row_levels keyValue msg_level }
  else
    let rowOrder := st.row_order ++ [keyValue]
    if maxRowsExceeded cfg.max_rows rowOrder.length then
      let oldest := rowOrder.headD keyValue
      { st with columns := columns,
                rows := setEntry (delEntry st.rows oldest) keyValue msg_extra,
                row_levels := setEntry (delEntry st.row_levels oldest) keyValue msg_level,
                row_order := rowOrder.tail }
    else
      { st with columns := columns,
                rows := setEntry st.rows keyValue msg_extra,
                row_levels := setEntry st.row_levels keyValue msg_level,
                row_order := rowOrder }

/-- What `__call__` reads off a loguru message: `record["extra"]` and
`record["level"].name`. -/
structure Record where
  extra : List (String × Value)
  level : String
  deriving DecidableEq, Repr

/-- `TableSink.__call__`: ignore everything once finished; drop events with
no extra data or without the key column; otherwise upsert and redraw. -/
def call (cfg : Config) (st : SinkState) (msg : Record) :
    SinkState × List TermOut :=
  if st.finished then (st, [])
  else if msg.extra = [] then (st, [])
  else
    match getEntry msg.extra cfg.key_column with
    | Option.none => (st, [])
    | Option.some keyValue =>
      renderTable cfg (upsert cfg st msg.extra msg.level keyValue) false

/-- `TableSink.finish`: when not yet finished and at least one row exists,
set the flag and render once with the closing border; otherwise do nothing. -/
def finish (cfg : Config) (st : SinkState) : SinkState × List TermOut :=
  if st.finished = false ∧ st.rows ≠ [] then
    renderTable cfg { st with finished := true } true
  else (st, [])

/-- One external stimulus: a dispatched log event or a `finish()` call. -/
inductive Action where
  | ingest (msg : Record)
  | finishCall
  deriving DecidableEq, Repr

/-- The state-and-output step for one action. -/
def step (cfg : Config) (st : SinkState) : Action → SinkState × List TermOut
  | Action.ingest msg => call cfg st msg
  | Action.finishCall => finish cfg st

/-- The state after a sequence of actions. -/
def runState (cfg : Config) (st : SinkState) (acts : List Action) : SinkState :=
  acts.foldl (fun s a => (step cfg s a).1) st

/-- The state after ingesting a sequence of events. -/
def ingestAll (cfg : Config) (st : SinkState) (msgs : List Record) : SinkState :=
  msgs.foldl (fun s m => (call cfg s m).1) st

/-- The event carries the key column with value `k` and nonempty data: its
ingestion passes both guards of `__call__`. -/
def ValidFor (keyCol : String) (msg : Record) (k : Value) : Prop :=
  msg.extra ≠ [] ∧ getEntry msg.extra keyCol = Option.some k

/-- A configuration whose row cap, when set, is positive (the spec's
contract for `max_rows`). -/
def ConfigWF (cfg : Config) : Prop :=
  ∀ m : Int, cfg.max_rows = Option.some m → 1 ≤ m

/-- The structural invariant of the sink's bookkeeping: the row dict, the
level dict and the order list all carry exactly the same keys in the same
order, without duplicates. -/
def StrongInv (st : SinkState) : Prop :=
  keysOf st.rows = st.row_order ∧ keysOf st.row_levels = st.row_order
    ∧ st.row_order.Nodup

/-- The column registry is either still empty or headed by the key column:
the shape every reachable registry has, since `_update_columns` only runs on
events that carry the key column and prepends it the first time. -/
def ColsOk (keyCol : String) (cols : List String) : Prop :=
  cols = [] ∨ ∃ t : List String, cols = keyCol :: t

/-- A concrete configuration (key `"epoch"`, cap 1) used to instantiate the
universally-quantified theorems at explicit inputs. -/
def exampleConfig : Config :=
  { key_column := "epoch", float_precision := 2,
    max_rows := Option.some 1, colorize := true }

/-- A concrete keyed event for key 0. -/
def msgE0 : Record :=
  { extra := [("epoch", Value.vint 0), ("loss", Value.vint 3)], level := "INFO" }

/-- A concrete keyed event for key 1. -/
def msgE1 : Record :=
  { extra := [("epoch", Value.vint 1), ("loss", Value.vint 4)], level := "SUCCESS" }

/-- A concrete reachable-shape state with one stored row. -/
def exampleState : SinkState :=
  { columns := ["epoch", "loss"],
    rows := [(Value.vint 0, [("epoch", Value.vint 0), ("loss", Value.vint 5)])],
    row_levels := [(Value.vint 0, "INFO")],
    row_order := [Value.vint 0],
    header_printed := false, last_line_count := 5, finished := false }

/-- A three-row probe state whose values are precision-independent and whose
levels have no color entry, so its rendering is independent of every
constructor parameter. -/
def probeState : SinkState :=
  { columns := ["epoch", "note"],
    rows := [(Value.vint 0, [("epoch", Value.vint 0), ("note", Value.vstr "a")]),
             (Value.vint 1, [("epoch", Value.vint 1)]),
             (Value.vint 2, [("epoch", Value.vint 2), ("note", Value.vstr "bb")])],
    row_levels := [(Value.vint 0, "NOLEVEL"), (Value.vint 1, "NOLEVEL"),
                   (Value.vint 2, "NOLEVEL")],
    row_order := [Value.vint 0, Value.vint 1, Value.vint 2],
    header_printed := false, last_line_count := 0, finished := false }

/-- A concrete action sequence exercising insertion, update, eviction and
finalization. -/
def exampleActs : List Action :=
  [Action.ingest { extra := [("epoch", Value.vint 0), ("loss", Value.vint 3)], level := "INFO" },
   Action.ingest { extra := [("epoch", Value.vint 1)], level := "WARNING" },
   Action.ingest { extra := [("epoch", Value.vint 1), ("loss", Value.vint 4)], level := "ERROR" },
   Action.ingest { extra := [("epoch", Value.vint 2)], level := "INFO" },
   Action.finishCall]

section AssocLemmas

variable {α β : Type}

@[simp] theorem keysOf_nil : keysOf ([] : List (α × β)) = [] := rfl

@[simp] theorem keysOf_cons {a : α} {b : β} {t : List (α × β)} :
    keysOf ((a, b) :: t) = a :: keysOf t := rfl

theorem keysOf_tail {d : List (α × β)} : keysOf d.tail = (keysOf d).tail := by
  cases d with
  | nil => rfl
  | cons p t =>
    obtain ⟨a, b⟩ := p
    simp

variable [DecidableEq α] {d : List (α × β)} {k k' : α} {v : β}

theorem getEntry_isSome_iff : (getEntry d k).isSome = true ↔ k ∈ keysOf d := by
  induction d with
  | nil => simp [getEntry]
  | cons p t ih =>
    obtain ⟨a, b⟩ := p
    by_cases h : a = k
    · subst h
      simp [getEntry]
    · have hne : ¬ k = a := fun hh => h hh.symm
      simp only [getEntry, if_neg h, keysOf_cons, List.mem_cons]
      rw [ih]
      simp [hne]

theorem getEntry_eq_none_of_not_mem (h : k ∉ keysOf d) :
    getEntry d k = Option.none := by
  cases he : getEntry d k with
  | none => rfl
  | some v =>
    exact absurd (getEntry_isSome_iff.mp (by simp [he])) h

theorem getEntry_isSome_false_iff :
    (getEntry d k).isSome = false ↔ k ∉ keysOf d := by
  rw [← getEntry_isSome_iff]
  cases (getEntry d k).isSome <;> simp

theorem keysOf_setEntry_of_mem (h : k ∈ keysOf d) :
    keysOf (setEntry d k v) = keysOf d := by
  induction d with
  | nil => simp at h
  | cons p t ih =>
    obtain ⟨a, b⟩ := p
    by_cases hak : a = k
    · subst hak
      simp [setEntry]
    · have hkt : k ∈ keysOf t := by
        rcases List.mem_cons.mp (by simpa using h) with h1 | h1
        · exact absurd h1.symm hak
        · exact h1
      simp [setEntry, hak, ih hkt]

theorem keysOf_setEntry_of_not_mem (h : k ∉ keysOf d) :
    keysOf (setEntry d k v) = keysOf d ++ [k] := by
  induction d with
  | nil => simp [setEntry]
  | cons p t ih =>
    obtain ⟨a, b⟩ := p
    have h1 : ¬ k = a := fun hh => h (by simp [hh])
    have h2 : k ∉ keysOf t := fun hh => h (by simp [hh])
    have hak : ¬ a = k := fun hh => h1 hh.symm
    simp [setEntry, hak, ih h2]

theorem getEntry_setEntry_self : getEntry (setEntry d k v) k = Option.some v := by
  induction d with
  | nil => simp [setEntry, getEntry]
  | cons p t ih =>
    obtain ⟨a, b⟩ := p
    by_cases hak : a = k
    · subst hak
      simp [setEntry, getEntry]
    · simp [setEntry, getEntry, hak, ih]

theorem getEntry_setEntry_of_ne (h : k' ≠ k) :
    getEntry (setEntry d k v) k' = getEntry d k' := by
  induction d with
  | nil => simp [setEntry, getEntry, Ne.symm h]
  | cons p t ih =>
    obtain ⟨a, b⟩ := p
    by_cases hak : a = k
    · subst hak
      simp [setEntry, getEntry, Ne.symm h]
    · simp only [setEntry, if_neg hak, getEntry]
      by_cases hak' : a = k'
      · simp [hak']
      · simp [hak', ih]

theorem delEntry_of_keys_head (h : keysOf d = k :: keysOf d.tail) :
    delEntry d k = d.tail := by
  cases d with
  | nil => simp at h
  | cons p t =>
    obtain ⟨a, b⟩ := p
    simp only [keysOf_cons, List.tail_cons, List.cons.injEq] at h
    simp [delEntry, h.1]

theorem getEntry_mem_snd (h : getEntry d k = Option.some v) :
    v ∈ d.map Prod.snd := by
  induction d with
  | nil => simp [getEntry] at h
  | cons p t ih =>
    obtain ⟨a, b⟩ := p
    by_cases hak : a = k
    · subst hak
      simp [getEntry] at h
      simp [h]
    · simp [getEntry, hak] at h
      simp [ih h]

end AssocLemmas

section CallLemmas

variable {cfg : Config} {st : SinkState} {msg : Record} {k : Value}
variable {e : List (String × Value)} {lvl : String}

theorem renderTable_fst (cfg : Config) (st : SinkState) (final : Bool) :
    (renderTable cfg st final).1
      = { st with last_line_count := countNewlines (renderTableString cfg st final) } :=
  rfl

theorem call_of_finished (h : st.finished = true) :
    call cfg st msg = (st, []) := by
  simp [call, h]

theorem call_of_empty (h : msg.extra = []) :
    call cfg st msg = (st, []) := by
  by_cases hf : st.finished <;> simp [call, h, hf]

theorem call_of_no_key (h : getEntry msg.extra cfg.key_column = Option.none) :
    call cfg st msg = (st, []) := by
  by_cases hf : st.finished
  · simp [call, hf]
  · by_cases he : msg.extra = [] <;> simp [call, hf, he, h]

theorem call_valid (hf : st.finished = false) (hne : msg.extra ≠ [])
    (hk : getEntry msg.extra cfg.key_column = Option.some k) :
    call cfg st msg
      = renderTable cfg (upsert cfg st msg.extra msg.level k) false := by
  simp [call, hf, hne, hk]

theorem upsert_existing (h : (getEntry st.rows k).isSome = true) :
    upsert cfg st e lvl k
      = { st with columns := updateColumns cfg.key_column st.columns e,
                  rows := setEntry st.rows k e,
                  row_levels := setEntry st.row_levels k lvl } := by
  simp [upsert, h]

theorem upsert_fresh_no_evict (h : (getEntry st.rows k).isSome = false)
    (hcap : maxRowsExceeded cfg.max_rows (st.row_order.length + 1) = false) :
    upsert cfg st e lvl k
      = { st with columns := updateColumns cfg.key_column st.columns e,
                  rows := setEntry st.rows k e,
                  row_levels := setEntry st.row_levels k lvl,
                  row_order := st.row_order ++ [k] } := by
  simp [upsert, h, hcap]

theorem upsert_fresh_evict (h : (getEntry st.rows k).isSome = false)
    (hcap : maxRowsExceeded cfg.max_rows (st.row_order.length + 1) = true) :
    upsert cfg st e lvl k
      = { st with columns := updateColumns cfg.key_column st.columns e,
                  rows := setEntry (delEntry st.rows ((st.row_order ++ [k]).headD k)) k e,
                  row_levels := setEntry (delEntry st.row_levels ((st.row_order ++ [k]).headD k)) k lvl,
                  row_order := (st.row_order ++ [k]).tail } := by
  simp [upsert, h, hcap]

theorem maxRowsExceeded_some_iff {m : Int} {n : Nat} :
    maxRowsExceeded (Option.some m) n = true ↔ ¬ m = 0 ∧ m < (n : Int) := by
  by_cases h : m = 0 <;> simp [maxRowsExceeded, h]

end CallLemmas

section InvariantLemmas

variable {cfg : Config} {st : SinkState} {msg : Record} {k : Value}
variable {e : List (String × Value)} {lvl : String}

theorem strongInv_initState : StrongInv initState := by
  simp [StrongInv, initState, keysOf]

theorem strongInv_update_last_line (st : SinkState) (n : Nat) :
    StrongInv { st with last_line_count := n } ↔ StrongInv st :=
  Iff.rfl

theorem row_order_nonempty_of_evict (hwf : ConfigWF cfg)
    (hcap : maxRowsExceeded cfg.max_rows (st.row_order.length + 1) = true) :
    st.row_order ≠ [] := by
  intro hnil
  cases hm : cfg.max_rows with
  | none => rw [hm] at hcap; simp [maxRowsExceeded] at hcap
  | some m =>
    have h1 : 1 ≤ m := hwf m hm
    rw [hm, maxRowsExceeded_some_iff] at hcap
    rw [hnil] at hcap
    simp at hcap
    omega

theorem strongInv_upsert (hwf : ConfigWF cfg) (hInv : StrongInv st) :
    StrongInv (upsert cfg st e lvl k) := by
  obtain ⟨hr, hl, hnd⟩ := hInv
  by_cases h : (getEntry st.rows k).isSome = true
  · have hkmem : k ∈ st.row_order := hr ▸ getEntry_isSome_iff.mp h
    rw [upsert_existing h]
    refine ⟨?_, ?_, hnd⟩
    · simpa [keysOf_setEntry_of_mem (hr ▸ hkmem : k ∈ keysOf st.rows)] using hr
    · simpa [keysOf_setEntry_of_mem (hl ▸ hkmem : k ∈ keysOf st.row_levels)] using hl
  · have hfalse : (getEntry st.rows k).isSome = false := by
      cases hh : (getEntry st.rows k).isSome
      · rfl
      · exact absurd hh h
    have hknot : k ∉ st.row_order := fun hmem =>
      h (getEntry_isSome_iff.mpr (hr ▸ hmem))
    by_cases hcap : maxRowsExceeded cfg.max_rows (st.row_order.length + 1) = true
    · have hne : st.row_order ≠ [] := row_order_nonempty_of_evict hwf hcap
      obtain ⟨o, t, ho⟩ := List.exists_cons_of_ne_nil hne
      rw [upsert_fresh_evict hfalse hcap]
      have hhead : ((st.row_order ++ [k]).headD k) = o := by simp [ho]
      have hrowsDel : delEntry st.rows o = st.rows.tail :=
        delEntry_of_keys_head (by rw [keysOf_tail, hr, ho]; simp [ho, hr])
      have hlevDel : delEntry st.row_levels o = st.row_levels.tail :=
        delEntry_of_keys_head (by rw [keysOf_tail, hl, ho]; simp [ho, hl])
      have hkeysRows : keysOf st.rows.tail = t := by rw [keysOf_tail, hr, ho]; rfl
      have hkeysLev : keysOf st.row_levels.tail = t := by rw [keysOf_tail, hl, ho]; rfl
      have hknt : k ∉ t := fun hmem => hknot (by simp [ho, hmem])
      refine ⟨?_, ?_, ?_⟩
      · rw [hhead, hrowsDel,
          keysOf_setEntry_of_not_mem (by rw [hkeysRows]; exact hknt), hkeysRows]
        simp [ho]
      · rw [hhead, hlevDel,
          keysOf_setEntry_of_not_mem (by rw [hkeysLev]; exact hknt), hkeysLev]
        simp [ho]
      · have hndt : t.Nodup := by
          rw [ho] at hnd
          exact (List.nodup_cons.mp hnd).2
        simp [ho, List.nodup_append, hndt, hknt]
    · have hcap' : maxRowsExceeded cfg.max_rows (st.row_order.length + 1) = false := by
        cases hh : maxRowsExceeded cfg.max_rows (st.row_order.length + 1)
        · rfl
        · exact absurd hh hcap
      rw [upsert_fresh_no_evict hfalse hcap']
      refine ⟨?_, ?_, ?_⟩
      · rw [keysOf_setEntry_of_not_mem (hr ▸ hknot), hr]
      · rw [keysOf_setEntry_of_not_mem (hl ▸ hknot), hl]
      · simp [List.nodup_append, hnd, hknot]

theorem strongInv_call (hwf : ConfigWF cfg) (hInv : StrongInv st) :
    StrongInv (call cfg st msg).1 := by
  by_cases hf : st.finished = true
  · rw [call_of_finished hf]; exact hInv
  · replace hf : st.finished = false := by simpa using hf
    by_cases he : msg.extra = []
    · rw [call_of_empty he]; exact hInv
    · cases hk : getEntry msg.extra cfg.key_column with
      | none => rw [call_of_no_key hk]; exact hInv
      | some k =>
        rw [call_valid hf he hk, renderTable_fst]
        exact (strongInv_update_last_line _ _).mpr (strongInv_upsert hwf hInv)

theorem strongInv_finish (hInv : StrongInv st) :
    StrongInv (finish cfg st).1 := by
  by_cases h : st.finished = false ∧ st.rows ≠ []
  · simp only [finish, if_pos h, renderTable_fst]
    exact hInv
  · simp only [finish, if_neg h]
    exact hInv

theorem strongInv_step (hwf : ConfigWF cfg) (hInv : StrongInv st) (a : Action) :
    StrongInv (step cfg st a).1 := by
  cases a with
  | ingest msg => exact strongInv_call hwf hInv
  | finishCall => exact strongInv_finish hInv

theorem strongInv_runState (hwf : ConfigWF cfg) (acts : List Action) :
    ∀ st : SinkState, StrongInv st → StrongInv (runState cfg st acts) := by
  induction acts with
  | nil => intro st h; simpa [runState] using h
  | cons a as ih =>
    intro st h
    simp only [runState, List.foldl_cons]
    exact ih _ (strongInv_step hwf h a)

theorem call_preserves_finished :
    (call cfg st msg).1.finished = st.finished := by
  by_cases hf : st.finished = true
  · rw [call_of_finished hf]
  · replace hf : st.finished = false := by simpa using hf
    by_cases he : msg.extra = []
    · rw [call_of_empty he]
    · cases hk : getEntry msg.extra cfg.key_column with
      | none => rw [call_of_no_key hk]
      | some k =>
        rw [call_valid hf he hk, renderTable_fst]
        simp only [upsert]
        split
        · rfl
        · split <;> rfl

end InvariantLemmas

section WidthLemmas

theorem foldl_max_eq {α : Type} (g : α → Nat) :
    ∀ (l : List α) (a : Nat),
      l.foldl (fun w x => max w (g x)) a = max a ((l.map g).foldr max 0) := by
  intro l
  induction l with
  | nil => intro a; simp
  | cons x xs ih =>
    intro a
    simp only [List.foldl_cons, List.map_cons, List.foldr_cons]
    rw [ih, Nat.max_assoc]

end WidthLemmas

/-- C6: for every column, the computed column width is exactly the maximum of
the column name's length and the lengths of the formatted values the stored
rows hold for that column (a row without the column contributing a blank,
hence length 0), plus the fixed padding of 2. -/
theorem c6_column_width_formula (prec : Nat)
    (rowsVals : List (List (String × Value))) (col : String) :
    columnWidth prec rowsVals col
      = max col.length
          ((rowsVals.map fun rd =>
              (formatValue prec ((getEntry rd col).getD Value.vnone)).length).foldr max 0)
        + 2 := by
  unfold columnWidth
  have hstep : (fun (w : Nat) (rd : List (String × Value)) =>
        match getEntry rd col with
        | Option.some v => max w (formatValue prec v).length
        | Option.none => w)
      = fun (w : Nat) rd =>
          max w (formatValue prec ((getEntry rd col).getD Value.vnone)).length := by
    funext w rd
    cases h : getEntry rd col with
    | none => simp [formatValue]
    | some v => simp
  rw [hstep, foldl_max_eq]

/-- C7: a repaint clears exactly the number of lines recorded by the previous
repaint (cursor-up-n plus clear-to-end when that number is positive, nothing
when it is zero — in particular on the very first repaint, since the initial
recorded count is zero), writes the new block, flushes, and records the new
block's newline count, which is exactly what the following repaint clears. -/
theorem c7_repaint_line_accounting (cfg : Config) (st : SinkState)
    (final final' : Bool) :
    (renderTable cfg st final).2
        = clearLines st.last_line_count
          ++ [TermOut.write (renderTableString cfg st final), TermOut.flush]
    ∧ (renderTable cfg st final).1.last_line_count
        = countNewlines (renderTableString cfg st final)
    ∧ (st.last_line_count = 0 → (renderTable cfg st final).2
        = [TermOut.write (renderTableString cfg st final), TermOut.flush])
    ∧ (0 < st.last_line_count → clearLines st.last_line_count
        = [TermOut.cursorUp st.last_line_count, TermOut.clearToEnd])
    ∧ initState.last_line_count = 0
    ∧ (renderTable cfg (renderTable cfg st final).1 final').2
        = clearLines (countNewlines (renderTableString cfg st final))
          ++ [TermOut.write (renderTableString cfg (renderTable cfg st final).1 final'),
              TermOut.flush] := by
  refine ⟨rfl, rfl, ?_, ?_, rfl, rfl⟩
  · intro h
    simp [renderTable, clearLines, h]
  · intro h
    simp [clearLines, h]

/-- C3: ingesting an event whose key matches an existing row stores the new
event's field mapping as the row (the old mapping is fully replaced, so
fields absent from the new event are gone) and leaves the row order — hence
the key's position — unchanged. -/
theorem c3_reingest_replaces_row_in_place (cfg : Config) (st : SinkState)
    (msg : Record) (k : Value)
    (hf : st.finished = false) (hne : msg.extra ≠ [])
    (hk : getEntry msg.extra cfg.key_column = Option.some k)
    (hmem : (getEntry st.rows k).isSome = true) :
    getEntry (call cfg st msg).1.rows k = Option.some msg.extra
      ∧ (call cfg st msg).1.row_order = st.row_order := by
  rw [call_valid hf hne hk, renderTable_fst, upsert_existing hmem]
  exact ⟨getEntry_setEntry_self, rfl⟩

/-- Witness for C3 at a concrete one-row state: re-ingesting key 0 with a
field set that drops `loss` and adds `acc` fully replaces the row and keeps
the row order `[0]`. -/
theorem c3_witness :
    getEntry (call exampleConfig exampleState
        { extra := [("epoch", Value.vint 0), ("acc", Value.vint 9)],
          level := "DEBUG" }).1.rows (Value.vint 0)
        = Option.some [("epoch", Value.vint 0), ("acc", Value.vint 9)]
      ∧ (call exampleConfig exampleState
          { extra := [("epoch", Value.vint 0), ("acc", Value.vint 9)],
            level := "DEBUG" }).1.row_order = exampleState.row_order :=
  c3_reingest_replaces_row_in_place exampleConfig exampleState _ (Value.vint 0)
    rfl (by decide) rfl rfl

/-- C4: an event with no structured data, or whose data lacks the key
column, is dropped whole: the returned state is the input state (row
storage, row order, columns, level map, line count all unchanged) and no
terminal output is produced. -/
theorem c4_unkeyed_event_dropped (cfg : Config) (st : SinkState) (msg : Record)
    (h : msg.extra = [] ∨ getEntry msg.extra cfg.key_column = Option.none) :
    call cfg st msg = (st, []) := by
  cases h with
  | inl he => exact call_of_empty he
  | inr hk => exact call_of_no_key hk

/-- Witness for C4: an event carrying only `loss` (no `epoch` key column) is
dropped from the one-row state without any effect or output. -/
theorem c4_witness :
    call exampleConfig exampleState
        { extra := [("loss", Value.vint 1)], level := "INFO" }
      = (exampleState, []) :=
  c4_unkeyed_event_dropped exampleConfig exampleState _ (Or.inr rfl)

/-- C10: in every state reachable from the freshly-constructed sink by
ingest and finish calls (under the spec's contract that a configured row cap
is positive), the row dict, the level dict and the row-order list hold
exactly the same keys, and the row order has no duplicates. -/
theorem c10_key_sets_agree (cfg : Config) (hwf : ConfigWF cfg)
    (acts : List Action) :
    (∀ k : Value, k ∈ keysOf (runState cfg initState acts).rows
        ↔ k ∈ (runState cfg initState acts).row_order)
    ∧ (∀ k : Value, k ∈ keysOf (runState cfg initState acts).row_levels
        ↔ k ∈ (runState cfg initState acts).row_order)
    ∧ (runState cfg initState acts).row_order.Nodup := by
  obtain ⟨hr, hl, hnd⟩ := strongInv_runState hwf acts initState strongInv_initState
  exact ⟨fun k => by rw [hr], fun k => by rw [hl], hnd⟩

section ColumnLemmas

variable {cfg : Config} {st : SinkState} {msg : Record} {k : Value}
variable {keyCol : String} {cols : List String} {data : List (String × Value)}

theorem foldl_register_cols (data : List (String × Value)) :
    ∀ cols : List String,
      ∃ added : List String,
        data.foldl (fun cs kv => if kv.1 ∈ cs then cs else cs ++ [kv.1]) cols
            = cols ++ added
          ∧ ∀ c ∈ added, c ∉ cols := by
  induction data with
  | nil => intro cols; exact ⟨[], by simp, by simp⟩
  | cons kv rest ih =>
    intro cols
    by_cases h : kv.1 ∈ cols
    · obtain ⟨added, heq, hfresh⟩ := ih cols
      exact ⟨added, by simpa [h] using heq, hfresh⟩
    · obtain ⟨added, heq, hfresh⟩ := ih (cols ++ [kv.1])
      refine ⟨kv.1 :: added, ?_, ?_⟩
      · simpa [h, List.append_assoc] using heq
      · intro c hc
        rcases List.mem_cons.mp hc with hc1 | hc1
        · rw [hc1]; exact h
        · intro hcols
          exact hfresh c hc1 (by simp [hcols])

theorem updateColumns_append (h : keyCol ∈ cols ∨ cols = []) :
    ∃ added : List String,
      updateColumns keyCol cols data = cols ++ added
        ∧ ∀ c ∈ added, c ∉ cols := by
  cases h with
  | inl hmem =>
    obtain ⟨added, heq, hfresh⟩ := foldl_register_cols data cols
    exact ⟨added, by simpa [updateColumns, hmem] using heq, hfresh⟩
  | inr hnil =>
    subst hnil
    by_cases hd : keyCol ∈ keysOf data
    · obtain ⟨added, heq, hfresh⟩ := foldl_register_cols data [keyCol]
      exact ⟨keyCol :: added, by simpa [updateColumns, hd] using heq, by simp⟩
    · obtain ⟨added, heq, hfresh⟩ := foldl_register_cols data ([] : List String)
      exact ⟨added, by simpa [updateColumns, hd] using heq, by simp⟩

theorem updateColumns_colsOk (hok : ColsOk keyCol cols)
    (hd : keyCol ∈ keysOf data) :
    ∃ t : List String, updateColumns keyCol cols data = keyCol :: t := by
  cases hok with
  | inl hnil =>
    subst hnil
    obtain ⟨added, heq, _⟩ := foldl_register_cols data [keyCol]
    exact ⟨added, by simpa [updateColumns, hd] using heq⟩
  | inr ht =>
    obtain ⟨t, rfl⟩ := ht
    have happ : ∃ added : List String,
        updateColumns keyCol (keyCol :: t) data = (keyCol :: t) ++ added
          ∧ ∀ c ∈ added, c ∉ (keyCol :: t) :=
      updateColumns_append (Or.inl (List.mem_cons_self _ _))
    obtain ⟨added, heq, _⟩ := happ
    exact ⟨t ++ added, by simpa using heq⟩

theorem upsert_columns {e : List (String × Value)} {lvl : String} :
    (upsert cfg st e lvl k).columns
      = updateColumns cfg.key_column st.columns e := by
  simp only [upsert]
  split
  · rfl
  · split <;> rfl

theorem finish_columns : (finish cfg st).1.columns = st.columns := by
  by_cases hc : st.finished = false ∧ st.rows ≠ []
  · simp only [finish, if_pos hc, renderTable_fst]
  · simp only [finish, if_neg hc]

theorem call_columns_cases (cfg : Config) (st : SinkState) (msg : Record) :
    (call cfg st msg).1.columns = st.columns
    ∨ ((call cfg st msg).1.columns
          = updateColumns cfg.key_column st.columns msg.extra
        ∧ cfg.key_column ∈ keysOf msg.extra
        ∧ st.finished = false ∧ msg.extra ≠ []) := by
  by_cases hf : st.finished = true
  · left; rw [call_of_finished hf]
  · replace hf : st.finished = false := by simpa using hf
    by_cases he : msg.extra = []
    · left; rw [call_of_empty he]
    · cases hk : getEntry msg.extra cfg.key_column with
      | none => left; rw [call_of_no_key hk]
      | some k =>
        right
        refine ⟨?_, ?_, hf, he⟩
        · rw [call_valid hf he hk, renderTable_fst]
          exact upsert_columns
        · exact getEntry_isSome_iff.mp (by rw [hk]; rfl)

theorem colsOk_step (hok : ColsOk cfg.key_column st.columns) (a : Action) :
    ColsOk cfg.key_column (step cfg st a).1.columns := by
  cases a with
  | finishCall =>
    simp only [step]
    rw [finish_columns]
    exact hok
  | ingest msg =>
    simp only [step]
    rcases call_columns_cases cfg st msg with h | ⟨heq, hmem, _, _⟩
    · rw [h]; exact hok
    · rw [heq]
      exact Or.inr (updateColumns_colsOk hok hmem)

theorem colsOk_runState (cfg : Config) (acts : List Action) :
    ∀ st : SinkState, ColsOk cfg.key_column st.columns
      → ColsOk cfg.key_column (runState cfg st acts).columns := by
  induction acts with
  | nil => intro st h; simpa [runState] using h
  | cons a as ih =>
    intro st h
    simp only [runState, List.foldl_cons]
    exact ih _ (colsOk_step h a)

theorem runState_snoc (cfg : Config) (st : SinkState) (acts : List Action)
    (a : Action) :
    runState cfg st (acts ++ [a]) = (step cfg (runState cfg st acts) a).1 := by
  simp [runState, List.foldl_append]

end ColumnLemmas

section EvictionLemmas

variable {cfg : Config} {st : SinkState} {msg : Record} {k : Value}

theorem configWF_of_cap {M : Nat} (hmax : cfg.max_rows = Option.some (M : Int))
    (hM : 1 ≤ M) : ConfigWF cfg := by
  intro m hm
  rw [hmax] at hm
  rw [Option.some.injEq] at hm
  omega

theorem maxRowsExceeded_cap_false {M : Nat} (hmax : cfg.max_rows = Option.some (M : Int))
    (hM : 1 ≤ M) {n : Nat} (hn : n ≤ M) :
    maxRowsExceeded cfg.max_rows n = false := by
  rw [hmax]
  have h0 : ¬ ((M : Int) = 0) := by omega
  simp only [maxRowsExceeded, if_neg h0]
  simp only [decide_eq_false_iff_not, not_lt]
  omega

theorem maxRowsExceeded_cap_true {M : Nat} (hmax : cfg.max_rows = Option.some (M : Int))
    (hM : 1 ≤ M) {n : Nat} (hn : M < n) :
    maxRowsExceeded cfg.max_rows n = true := by
  rw [hmax, maxRowsExceeded_some_iff]
  constructor
  · omega
  · omega

/-- Running a sequence of guard-passing events whose keys are all fresh and
mutually distinct, from any invariant state under cap `M`, leaves as row
order exactly the last `M` elements of the old order followed by the new
keys (everything before is evicted front-first). -/
theorem ingest_seq_order (cfg : Config) (M : Nat)
    (hmax : cfg.max_rows = Option.some (M : Int)) (hM : 1 ≤ M) :
    ∀ (msgs : List Record) (ks : List Value),
      List.Forall₂ (ValidFor cfg.key_column) msgs ks →
      ∀ st : SinkState, StrongInv st → st.finished = false →
        (st.row_order ++ ks).Nodup → st.row_order.length ≤ M →
        (ingestAll cfg st msgs).row_order
            = (st.row_order ++ ks).drop (st.row_order.length + ks.length - M)
          ∧ StrongInv (ingestAll cfg st msgs) := by
  have hwf : ConfigWF cfg := configWF_of_cap hmax hM
  intro msgs ks hall
  induction hall with
  | nil =>
    intro st hInv hfin hnd hlen
    have hz : st.row_order.length - M = 0 := by omega
    simp [ingestAll, hz, hInv]
  | cons hmk hrest ih =>
    rename_i msg k msgs' ks'
    intro st hInv hfin hnd hlen
    have hknot : k ∉ st.row_order := by
      rcases List.nodup_append.mp hnd with ⟨_, _, hdisj⟩
      exact fun hmem => hdisj hmem (List.mem_cons_self _ _)
    have hfresh : (getEntry st.rows k).isSome = false :=
      getEntry_isSome_false_iff.mpr (by rw [hInv.1]; exact hknot)
    have hstep : ingestAll cfg st (msg :: msgs') = ingestAll cfg (call cfg st msg).1 msgs' := by
      simp [ingestAll]
    have hInv1 : StrongInv (call cfg st msg).1 := strongInv_call hwf hInv
    have hfin1 : (call cfg st msg).1.finished = false := by
      rw [call_preserves_finished]; exact hfin
    by_cases hlt : st.row_order.length < M
    · -- still below the cap: plain append, no eviction
      have hcapA : maxRowsExceeded cfg.max_rows (st.row_order.length + 1) = false :=
        maxRowsExceeded_cap_false hmax hM (by omega)
      have hord1 : (call cfg st msg).1.row_order = st.row_order ++ [k] := by
        rw [call_valid hfin hmk.1 hmk.2, renderTable_fst,
          upsert_fresh_no_evict hfresh hcapA]
      have hnd1 : ((call cfg st msg).1.row_order ++ ks').Nodup := by
        rw [hord1, List.append_assoc]
        simpa using hnd
      have hlen1 : (call cfg st msg).1.row_order.length ≤ M := by
        rw [hord1]; simp; omega
      obtain ⟨hres, hResInv⟩ := ih (call cfg st msg).1 hInv1 hfin1 hnd1 hlen1
      rw [hstep]
      refine ⟨?_, hResInv⟩
      rw [hres, hord1]
      have hidx : (st.row_order ++ [k]).length + ks'.length - M
          = st.row_order.length + (k :: ks').length - M := by
        simp only [List.length_append, List.length_cons, List.length_nil]
        omega
      rw [hidx, List.append_assoc]
      rfl
    · -- the table is full: the head of the order is evicted
      have hfull : st.row_order.length = M := by omega
      have hcapB : maxRowsExceeded cfg.max_rows (st.row_order.length + 1) = true :=
        maxRowsExceeded_cap_true hmax hM (by omega)
      have hne : st.row_order ≠ [] := by
        intro h0
        rw [h0] at hfull
        simp at hfull
        omega
      obtain ⟨o, t, ho⟩ := List.exists_cons_of_ne_nil hne
      have hord1 : (call cfg st msg).1.row_order = t ++ [k] := by
        rw [call_valid hfin hmk.1 hmk.2, renderTable_fst,
          upsert_fresh_evict hfresh hcapB]
        simp [ho]
      have hnd1 : ((call cfg st msg).1.row_order ++ ks').Nodup := by
        rw [hord1, List.append_assoc]
        have : (st.row_order ++ k :: ks').Nodup := hnd
        rw [ho] at this
        simpa using (List.nodup_cons.mp this).2
      have hlen1 : (call cfg st msg).1.row_order.length ≤ M := by
        rw [hord1]
        simp
        have : t.length + 1 = M := by
          rw [ho] at hfull; simpa using hfull
        omega
      obtain ⟨hres, hResInv⟩ := ih (call cfg st msg).1 hInv1 hfin1 hnd1 hlen1
      rw [hstep]
      refine ⟨?_, hResInv⟩
      rw [hres, hord1]
      have htlen : t.length + 1 = M := by
        rw [ho] at hfull; simpa using hfull
      have hidx1 : (t ++ [k]).length + ks'.length - M = ks'.length := by
        simp; omega
      have hidx2 : st.row_order.length + (k :: ks').length - M = ks'.length + 1 := by
        simp [hfull]
      rw [hidx1, hidx2, ho]
      rw [show (o :: t) ++ k :: ks' = o :: (t ++ k :: ks') from rfl]
      rw [List.drop_succ_cons]
      congr 1
      simp

end EvictionLemmas

/-- C1: with a positive cap `M`, ingesting any `M + 1` guard-passing events
with pairwise-distinct keys `k1 :: krest` (so `krest` has length `M`) from
the fresh state leaves row order exactly `krest`, and the first key is
purged from both the row storage and the per-row level map. Moreover an
event whose key already has a row never changes the row order or the key
set, and inserting a fresh key while fewer than `M` rows exist only appends
it — eviction happens only on a fresh insertion into a full table. -/
theorem c1_eviction_order (cfg : Config) (M : Nat)
    (hmax : cfg.max_rows = Option.some (M : Int)) (hM : 1 ≤ M)
    (msgs : List Record) (k1 : Value) (krest : List Value)
    (hall : List.Forall₂ (ValidFor cfg.key_column) msgs (k1 :: krest))
    (hlen : krest.length = M) (hnd : (k1 :: krest).Nodup) :
    (ingestAll cfg initState msgs).row_order = krest
    ∧ getEntry (ingestAll cfg initState msgs).rows k1 = Option.none
    ∧ getEntry (ingestAll cfg initState msgs).row_levels k1 = Option.none
    ∧ (∀ (st : SinkState) (msg : Record) (k : Value), st.finished = false
        → ValidFor cfg.key_column msg k → (getEntry st.rows k).isSome = true
        → (call cfg st msg).1.row_order = st.row_order
          ∧ keysOf (call cfg st msg).1.rows = keysOf st.rows)
    ∧ (∀ (st : SinkState) (msg : Record) (k : Value), st.finished = false
        → ValidFor cfg.key_column msg k → (getEntry st.rows k).isSome = false
        → st.row_order.length < M
        → (call cfg st msg).1.row_order = st.row_order ++ [k]
          ∧ keysOf (call cfg st msg).1.rows = keysOf st.rows ++ [k]) := by
  obtain ⟨hord, hInvRes⟩ :=
    ingest_seq_order cfg M hmax hM msgs (k1 :: krest) hall initState
      strongInv_initState rfl (by simpa [initState] using hnd) (by simp [initState])
  have hord' : (ingestAll cfg initState msgs).row_order = krest := by
    rw [hord]
    have hidx : initState.row_order.length + (k1 :: krest).length - M = 1 := by
      simp [initState, hlen]
    rw [hidx]
    simp [initState]
  have hk1 : k1 ∉ krest := (List.nodup_cons.mp hnd).1
  refine ⟨hord', ?_, ?_, ?_, ?_⟩
  · exact getEntry_eq_none_of_not_mem (by rw [hInvRes.1, hord']; exact hk1)
  · exact getEntry_eq_none_of_not_mem (by rw [hInvRes.2.1, hord']; exact hk1)
  · intro st msg k hfin hv hmem
    rw [call_valid hfin hv.1 hv.2, renderTable_fst, upsert_existing hmem]
    exact ⟨rfl, keysOf_setEntry_of_mem (getEntry_isSome_iff.mp hmem)⟩
  · intro st msg k hfin hv hmem hroom
    have hcap : maxRowsExceeded cfg.max_rows (st.row_order.length + 1) = false :=
      maxRowsExceeded_cap_false hmax hM (by omega)
    rw [call_valid hfin hv.1 hv.2, renderTable_fst, upsert_fresh_no_evict hmem hcap]
    exact ⟨rfl, keysOf_setEntry_of_not_mem (getEntry_isSome_false_iff.mp hmem)⟩

/-- Witness for C1 with cap 1: ingesting keys 0 then 1 evicts key 0 whole,
leaving row order `[1]`. -/
theorem c1_witness :
    (ingestAll exampleConfig initState [msgE0, msgE1]).row_order = [Value.vint 1]
    ∧ getEntry (ingestAll exampleConfig initState [msgE0, msgE1]).rows (Value.vint 0)
        = Option.none
    ∧ getEntry (ingestAll exampleConfig initState [msgE0, msgE1]).row_levels (Value.vint 0)
        = Option.none
    ∧ (∀ (st : SinkState) (msg : Record) (k : Value), st.finished = false
        → ValidFor exampleConfig.key_column msg k → (getEntry st.rows k).isSome = true
        → (call exampleConfig st msg).1.row_order = st.row_order
          ∧ keysOf (call exampleConfig st msg).1.rows = keysOf st.rows)
    ∧ (∀ (st : SinkState) (msg : Record) (k : Value), st.finished = false
        → ValidFor exampleConfig.key_column msg k → (getEntry st.rows k).isSome = false
        → st.row_order.length < 1
        → (call exampleConfig st msg).1.row_order = st.row_order ++ [k]
          ∧ keysOf (call exampleConfig st msg).1.rows = keysOf st.rows ++ [k]) :=
  c1_eviction_order exampleConfig 1 rfl (by decide) [msgE0, msgE1]
    (Value.vint 0) [Value.vint 1]
    (List.Forall₂.cons (by exact ⟨by decide, rfl⟩)
      (List.Forall₂.cons (by exact ⟨by decide, rfl⟩) List.Forall₂.nil))
    rfl (by decide)

/-- C2: along every action sequence, one more step only ever appends
fresh names to the column registry (so previously-registered columns are
never reordered nor removed, and within one event new columns are appended
in the event's own field order, i.e. first-seen order); any nonempty
reachable registry is headed by the configured key column; and an ingested
event that passes the guards puts the key column into the registry. -/
theorem c2_column_registry_stable (cfg : Config) (acts : List Action)
    (a : Action) :
    (∃ added : List String,
        (runState cfg initState (acts ++ [a])).columns
            = (runState cfg initState acts).columns ++ added
          ∧ ∀ c ∈ added, c ∉ (runState cfg initState acts).columns)
    ∧ ((runState cfg initState acts).columns ≠ []
        → (runState cfg initState acts).columns.head? = Option.some cfg.key_column)
    ∧ ((runState cfg initState (acts ++ [a])).columns ≠ []
        → (runState cfg initState (acts ++ [a])).columns.head?
            = Option.some cfg.key_column)
    ∧ (∀ msg : Record, a = Action.ingest msg
        → (runState cfg initState acts).finished = false
        → msg.extra ≠ []
        → cfg.key_column ∈ keysOf msg.extra
        → cfg.key_column ∈ (runState cfg initState (acts ++ [a])).columns) := by
  have hok : ColsOk cfg.key_column (runState cfg initState acts).columns :=
    colsOk_runState cfg acts initState (Or.inl rfl)
  have hok' : ColsOk cfg.key_column (runState cfg initState (acts ++ [a])).columns :=
    colsOk_runState cfg (acts ++ [a]) initState (Or.inl rfl)
  refine ⟨?_, ?_, ?_, ?_⟩
  · rw [runState_snoc]
    cases a with
    | finishCall =>
      simp only [step]
      rw [finish_columns]
      exact ⟨[], by simp, by simp⟩
    | ingest msg =>
      simp only [step]
      rcases call_columns_cases cfg (runState cfg initState acts) msg
        with h | ⟨heq, hmem, _, _⟩
      · rw [h]; exact ⟨[], by simp, by simp⟩
      · rw [heq]
        exact updateColumns_append
          (by rcases hok with h1 | ⟨t, h1⟩ <;> simp [h1])
  · intro hne
    rcases hok with h1 | ⟨t, h1⟩
    · exact absurd h1 hne
    · rw [h1]; rfl
  · intro hne
    rcases hok' with h1 | ⟨t, h1⟩
    · exact absurd h1 hne
    · rw [h1]; rfl
  · intro msg ha hfin hne hmem
    subst ha
    rw [runState_snoc]
    simp only [step]
    have hsome : (getEntry msg.extra cfg.key_column).isSome = true :=
      getEntry_isSome_iff.mpr hmem
    cases hk : getEntry msg.extra cfg.key_column with
    | none => rw [hk] at hsome; cases hsome
    | some k =>
      rw [call_valid hfin hne hk, renderTable_fst]
      show cfg.key_column
        ∈ (upsert cfg (runState cfg initState acts) msg.extra msg.level k).columns
      rw [upsert_columns]
      rcases updateColumns_colsOk hok hmem with ⟨t, ht⟩
      rw [ht]
      exact List.mem_cons_self _ _

section RenderLemmas

variable {c : Char} {s : String}

theorem charCount_append (c : Char) (a b : String) :
    charCount c (a ++ b) = charCount c a + charCount c b := by
  simp [charCount, String.data_append]

theorem charCount_of_not_mem (c : Char) (s : String) (h : c ∉ s.data) :
    charCount c s = 0 :=
  List.count_eq_zero.mpr h

theorem charCount_mk_replicate (c d : Char) (h : c ≠ d) (n : Nat) :
    charCount c (String.mk (List.replicate n d)) = 0 := by
  apply charCount_of_not_mem
  simp [List.mem_replicate, h]

theorem charCount_dash (c : Char) (h : c ≠ '─') : charCount c "─" = 0 := by
  apply charCount_of_not_mem
  rw [show ("─").data = ['─'] from rfl]
  simp [h]

theorem charCount_space (c : Char) (h : c ≠ ' ') : charCount c " " = 0 := by
  apply charCount_of_not_mem
  rw [show (" ").data = [' '] from rfl]
  simp [h]

theorem charCount_joinSep_zero (c : Char) (sep : String) (parts : List String)
    (hs : charCount c sep = 0) (hp : ∀ p ∈ parts, charCount c p = 0) :
    charCount c (joinSep sep parts) = 0 := by
  induction parts with
  | nil => rfl
  | cons x xs ih =>
    cases xs with
    | nil => exact hp x (by simp)
    | cons y ys =>
      rw [joinSep, charCount_append, charCount_append]
      rw [hp x (by simp), hs, ih (fun p hmem => hp p (by simp [List.mem_cons] at hmem ⊢; tauto))]

theorem charCount_rjust_zero (c : Char) (hc : c ≠ ' ') (s : String) (n : Nat)
    (hs : charCount c s = 0) : charCount c (rjust s n) = 0 := by
  rw [rjust, charCount_append, hs, charCount_mk_replicate c ' ' hc]

/-- The value a defaulted dict lookup can return is the default or one of the
stored values. -/
theorem getD_getEntry_mem {α β : Type} [DecidableEq α] (d : List (α × β))
    (k : α) (dflt : β) : (getEntry d k).getD dflt ∈ dflt :: d.map Prod.snd := by
  cases h : getEntry d k with
  | none => simp
  | some v =>
    simp only [Option.getD_some]
    exact List.mem_cons_of_mem _ (getEntry_mem_snd h)

theorem nlfree_colorCode (lvl : String) :
    charCount '\n' ((getEntry LEVEL_COLORS lvl).getD "") = 0 := by
  have h := getD_getEntry_mem LEVEL_COLORS lvl ""
  simp only [LEVEL_COLORS, List.map_cons, List.map_nil, List.mem_cons,
    List.not_mem_nil, or_false] at h ⊢
  rcases h with h | h | h | h | h | h | h | h <;> rw [h] <;> decide

theorem charCount_buildRow_zero (c : Char) (hsp : c ≠ ' ')
    (colorize : Bool) (prec : Nat) (cols : List String)
    (data : List (String × Value)) (w : String → Nat) (code : String)
    (hvals : ∀ col ∈ cols,
      charCount c (formatValue prec ((getEntry data col).getD (Value.vstr ""))) = 0)
    (hcode : charCount c code = 0) (hreset : charCount c RESET = 0) :
    charCount c (buildRow colorize prec cols data w code) = 0 := by
  have hparts : ∀ p ∈ cols.map (fun col =>
      rjust (formatValue prec ((getEntry data col).getD (Value.vstr ""))) (w col - 1) ++ " "),
      charCount c p = 0 := by
    intro p hp
    rcases List.mem_map.mp hp with ⟨col, hcol, rfl⟩
    rw [charCount_append, charCount_rjust_zero c hsp _ _ (hvals col hcol),
      charCount_space c hsp]
  have hmid : charCount c (" " ++ joinSep " "
      (cols.map (fun col =>
        rjust (formatValue prec ((getEntry data col).getD (Value.vstr ""))) (w col - 1) ++ " "))
      ++ " ") = 0 := by
    rw [charCount_append, charCount_append, charCount_space c hsp,
      charCount_joinSep_zero c " " _ (charCount_space c hsp) hparts]
  simp only [buildRow]
  split
  · rw [charCount_append, charCount_append, hcode, hreset, hmid]
  · exact hmid

theorem charCount_buildSeparator_zero (c : Char) (h : c ≠ '─')
    (cols : List String) (w : String → Nat) :
    charCount c (buildSeparator cols w) = 0 := by
  apply charCount_joinSep_zero c _ _ (charCount_dash c h)
  intro p hp
  rcases List.mem_map.mp hp with ⟨col, _, rfl⟩
  exact charCount_mk_replicate c '─' h _

theorem getEntry_map_mk {f : String → Value} :
    ∀ (cols : List String) (col : String), col ∈ cols →
      getEntry (cols.map fun c => (c, f c)) col = Option.some (f col) := by
  intro cols
  induction cols with
  | nil => simp
  | cons c cs ih =>
    intro col hcol
    by_cases h : c = col
    · subst h; simp [getEntry]
    · have hmem : col ∈ cs := by
        rcases List.mem_cons.mp hcol with h1 | h1
        · exact absurd h1.symm h
        · exact h1
      simp [getEntry, h, ih _ hmem]

theorem concatLines_append (A B : List String) :
    concatLines (A ++ B) = concatLines A ++ concatLines B := by
  induction A with
  | nil => simp [concatLines, String.empty_append]
  | cons a as ih => simp [concatLines, ih, String.append_assoc]

theorem charCount_concatLines_nl (lines : List String)
    (h : ∀ l ∈ lines, charCount '\n' l = 0) :
    charCount '\n' (concatLines lines) = lines.length := by
  induction lines with
  | nil => rfl
  | cons l ls ih =>
    rw [concatLines, charCount_append, charCount_append, h l (by simp),
      ih (fun p hmem => h p (by simp [hmem]))]
    rw [show charCount '\n' "\n" = 1 from rfl]
    simp only [List.length_cons]
    omega

theorem charCount_concatLines_zero (c : Char) (hnl : c ≠ '\n')
    (lines : List String) (h : ∀ l ∈ lines, charCount c l = 0) :
    charCount c (concatLines lines) = 0 := by
  induction lines with
  | nil => rfl
  | cons l ls ih =>
    rw [concatLines, charCount_append, charCount_append, h l (by simp),
      ih (fun p hmem => h p (by simp [hmem]))]
    have hn : charCount c "\n" = 0 := by
      apply charCount_of_not_mem
      rw [show ("\n").data = ['\n'] from rfl]
      simp [hnl]
    simp [hn]

/-- The sequential writes of `_render_table` assemble exactly the line list
top border, header, separator, data rows, optional closing border. -/
theorem renderTableString_eq_concatLines (cfg : Config) (st : SinkState)
    (final : Bool) :
    renderTableString cfg st final
      = concatLines
          (buildSeparator st.columns
              (fun col => columnWidth cfg.float_precision (st.rows.map Prod.snd) col)
            :: buildRow cfg.colorize cfg.float_precision st.columns
                (st.columns.map fun col => (col, Value.vstr col))
                (fun col => columnWidth cfg.float_precision (st.rows.map Prod.snd) col) ""
            :: buildSeparator st.columns
                (fun col => columnWidth cfg.float_precision (st.rows.map Prod.snd) col)
            :: ((st.row_order.map fun key =>
                  buildRow cfg.colorize cfg.float_precision st.columns
                    ((getEntry st.rows key).getD [])
                    (fun col => columnWidth cfg.float_precision (st.rows.map Prod.snd) col)
                    ((getEntry LEVEL_COLORS ((getEntry st.row_levels key).getD "INFO")).getD ""))
              ++ (if final then
                    [buildSeparator st.columns
                      (fun col => columnWidth cfg.float_precision (st.rows.map Prod.snd) col)]
                  else []))) := by
  cases final <;>
    simp [renderTableString, concatLines_append, concatLines,
      String.append_assoc, String.append_empty]

/-- Every line of the rendered block is free of the character `c`, for any
`c` that is not the space, the dash or a character of a color code, provided
the column names and the formatted cell values are free of it. -/
theorem charCount_render_lines_zero (cfg : Config) (st : SinkState)
    (final : Bool) (c : Char) (hsp : c ≠ ' ') (hdash : c ≠ '─')
    (hcode : ∀ lvl : String, charCount c ((getEntry LEVEL_COLORS lvl).getD "") = 0)
    (hreset : charCount c RESET = 0)
    (hcols : ∀ col ∈ st.columns, charCount c col = 0)
    (hvals : ∀ rd ∈ st.rows.map Prod.snd, ∀ p ∈ rd,
      charCount c (formatValue cfg.float_precision p.2) = 0) :
    ∀ l ∈ (buildSeparator st.columns
          (fun col => columnWidth cfg.float_precision (st.rows.map Prod.snd) col)
        :: buildRow cfg.colorize cfg.float_precision st.columns
            (st.columns.map fun col => (col, Value.vstr col))
            (fun col => columnWidth cfg.float_precision (st.rows.map Prod.snd) col) ""
        :: buildSeparator st.columns
            (fun col => columnWidth cfg.float_precision (st.rows.map Prod.snd) col)
        :: ((st.row_order.map fun key =>
              buildRow cfg.colorize cfg.float_precision st.columns
                ((getEntry st.rows key).getD [])
                (fun col => columnWidth cfg.float_precision (st.rows.map Prod.snd) col)
                ((getEntry LEVEL_COLORS ((getEntry st.row_levels key).getD "INFO")).getD ""))
          ++ (if final then
                [buildSeparator st.columns
                  (fun col => columnWidth cfg.float_precision (st.rows.map Prod.snd) col)]
              else []))), charCount c l = 0 := by
  have hsep : charCount c (buildSeparator st.columns
      (fun col => columnWidth cfg.float_precision (st.rows.map Prod.snd) col)) = 0 :=
    charCount_buildSeparator_zero c hdash _ _
  have hrowline : ∀ key : Value, charCount c
      (buildRow cfg.colorize cfg.float_precision st.columns
        ((getEntry st.rows key).getD [])
        (fun col => columnWidth cfg.float_precision (st.rows.map Prod.snd) col)
        ((getEntry LEVEL_COLORS ((getEntry st.row_levels key).getD "INFO")).getD "")) = 0 := by
    intro key
    apply charCount_buildRow_zero c hsp
    · intro col hcol
      cases hrd : getEntry st.rows key with
      | none => simp [getEntry, formatValue, charCount]
      | some rd =>
        simp only [Option.getD_some]
        cases hv : getEntry rd col with
        | none => simp [formatValue, charCount]
        | some v =>
          simp only [Option.getD_some]
          rcases List.mem_map.mp (getEntry_mem_snd hv) with ⟨p, hp, hpv⟩
          rw [← hpv]
          exact hvals rd (getEntry_mem_snd hrd) p hp
    · exact hcode _
    · exact hreset
  have hheader : charCount c
      (buildRow cfg.colorize cfg.float_precision st.columns
        (st.columns.map fun col => (col, Value.vstr col))
        (fun col => columnWidth cfg.float_precision (st.rows.map Prod.snd) col) "") = 0 := by
    apply charCount_buildRow_zero c hsp
    · intro col hcol
      rw [getEntry_map_mk st.columns col hcol]
      simp only [Option.getD_some, formatValue]
      exact hcols col hcol
    · rfl
    · exact hreset
  intro l hl
  rcases List.mem_cons.mp hl with rfl | hl
  · exact hsep
  · rcases List.mem_cons.mp hl with rfl | hl
    · exact hheader
    · rcases List.mem_cons.mp hl with rfl | hl
      · exact hsep
      · rcases List.mem_append.mp hl with hl | hl
        · rcases List.mem_map.mp hl with ⟨key, hkey, rfl⟩
          exact hrowline key
        · cases final with
          | true =>
            simp only [if_pos] at hl
            rcases List.mem_singleton.mp hl with rfl
            exact hsep
          | false => simp at hl

theorem formatValue_vint (n : Nat) (m : Int) :
    formatValue n (Value.vint m) = toString m := rfl

theorem formatValue_vstr (n : Nat) (s : String) :
    formatValue n (Value.vstr s) = s := rfl

theorem charCount_formatValue_vint (c : Char) (n : Nat) (m : Int)
    (h : charCount c (toString m) = 0) :
    charCount c (formatValue n (Value.vint m)) = 0 := h

theorem charCount_formatValue_vstr (c : Char) (n : Nat) (s : String)
    (h : charCount c s = 0) :
    charCount c (formatValue n (Value.vstr s)) = 0 := h

/-- No character of the rendered block is `c`, for any `c` distinct from
the newline, the space, the dash and the color-code characters, when the
column names and formatted values avoid it: the renderer emits no other
character class. -/
theorem charCount_render_zero (cfg : Config) (st : SinkState) (final : Bool)
    (c : Char) (hnl : c ≠ '\n') (hsp : c ≠ ' ') (hdash : c ≠ '─')
    (hcode : ∀ lvl : String, charCount c ((getEntry LEVEL_COLORS lvl).getD "") = 0)
    (hreset : charCount c RESET = 0)
    (hcols : ∀ col ∈ st.columns, charCount c col = 0)
    (hvals : ∀ rd ∈ st.rows.map Prod.snd, ∀ p ∈ rd,
      charCount c (formatValue cfg.float_precision p.2) = 0) :
    charCount c (renderTableString cfg st final) = 0 := by
  rw [renderTableString_eq_concatLines]
  exact charCount_concatLines_zero c hnl _
    (charCount_render_lines_zero cfg st final c hsp hdash hcode hreset hcols hvals)

theorem boxfree_colorCode (c : Char)
    (hc : c ∈ ['╭', '┬', '╮', '├', '┼', '┤', '╰', '┴', '╯']) (lvl : String) :
    charCount c ((getEntry LEVEL_COLORS lvl).getD "") = 0 := by
  have h := getD_getEntry_mem LEVEL_COLORS lvl ""
  simp only [LEVEL_COLORS, List.map_cons, List.map_nil, List.mem_cons,
    List.not_mem_nil, or_false] at h ⊢
  rcases h with h | h | h | h | h | h | h | h <;> rw [h] <;>
    (fin_cases hc <;> decide)

end RenderLemmas

/-- C8: the rendered block is exactly the lines top border, header row
(whose cell values are the column names), header separator, then one line
per key in row order, and a closing bottom border if and only if the redraw
is final — each line terminated by a newline; consequently (for cell text
free of embedded newlines) the block's line count is
`3 + number of rows (+ 1 when final)`. -/
theorem c8_redraw_layout (cfg : Config) (st : SinkState) (final : Bool)
    (hcols : ∀ col ∈ st.columns, charCount '\n' col = 0)
    (hvals : ∀ rd ∈ st.rows.map Prod.snd, ∀ p ∈ rd,
      charCount '\n' (formatValue cfg.float_precision p.2) = 0) :
    renderTableString cfg st final
        = concatLines
            (buildSeparator st.columns
                (fun col => columnWidth cfg.float_precision (st.rows.map Prod.snd) col)
              :: buildRow cfg.colorize cfg.float_precision st.columns
                  (st.columns.map fun col => (col, Value.vstr col))
                  (fun col => columnWidth cfg.float_precision (st.rows.map Prod.snd) col) ""
              :: buildSeparator st.columns
                  (fun col => columnWidth cfg.float_precision (st.rows.map Prod.snd) col)
              :: ((st.row_order.map fun key =>
                    buildRow cfg.colorize cfg.float_precision st.columns
                      ((getEntry st.rows key).getD [])
                      (fun col => columnWidth cfg.float_precision (st.rows.map Prod.snd) col)
                      ((getEntry LEVEL_COLORS ((getEntry st.row_levels key).getD "INFO")).getD ""))
                ++ (if final then
                      [buildSeparator st.columns
                        (fun col => columnWidth cfg.float_precision (st.rows.map Prod.snd) col)]
                    else [])))
    ∧ countNewlines (renderTableString cfg st final)
        = 3 + st.row_order.length + (if final then 1 else 0) := by
  have heq := renderTableString_eq_concatLines cfg st final
  have hzero := charCount_render_lines_zero cfg st final '\n'
    (by decide) (by decide) nlfree_colorCode (by decide) hcols hvals
  refine ⟨heq, ?_⟩
  show charCount '\n' (renderTableString cfg st final) = _
  rw [heq, charCount_concatLines_nl _ hzero]
  cases final <;> simp [Nat.add_comm, Nat.add_assoc, Nat.add_left_comm]

/-- Counterexample to C9 as stated: no construction-time configuration can
produce boxed-Unicode output — at the three-row probe state, every
configuration and both redraw modes emit not a single `'╭'` — and the plain
style inserts no divider row: the probe render is exactly the
3 header/border lines plus its 3 data lines, nothing between them. -/
theorem c9_counterexample :
    (¬ ∃ (cfg : Config) (final : Bool),
        0 < charCount '╭' (renderTableString cfg probeState final))
    ∧ countNewlines (renderTableString exampleConfig probeState false)
        = 3 + probeState.row_order.length := by
  constructor
  · rintro ⟨cfg, final, h⟩
    have h0 : charCount '╭' (renderTableString cfg probeState final) = 0 := by
      apply charCount_render_zero cfg probeState final '╭'
        (by decide) (by decide) (by decide)
        (boxfree_colorCode '╭' (by decide)) (by decide)
      · intro col hcol
        simp only [probeState, List.mem_cons, List.not_mem_nil, or_false] at hcol
        rcases hcol with rfl | rfl <;> decide
      · intro rd hrd p hp
        simp only [probeState, List.map_cons, List.map_nil, List.mem_cons,
          List.not_mem_nil, or_false] at hrd
        rcases hrd with rfl | rfl | rfl <;>
          simp only [List.mem_cons, List.not_mem_nil, or_false] at hp
        · rcases hp with rfl | rfl
          · exact charCount_formatValue_vint _ _ _ (by decide)
          · exact charCount_formatValue_vstr _ _ _ (by decide)
        · rcases hp with rfl
          exact charCount_formatValue_vint _ _ _ (by decide)
        · rcases hp with rfl | rfl
          · exact charCount_formatValue_vint _ _ _ (by decide)
          · exact charCount_formatValue_vstr _ _ _ (by decide)
    rw [h0] at h
    exact absurd h (by decide)
  · have heq := renderTableString_eq_concatLines exampleConfig probeState false
    have hzero := charCount_render_lines_zero exampleConfig probeState false '\n'
      (by decide) (by decide) nlfree_colorCode (by decide) (by decide) (by decide)
    show charCount '\n' (renderTableString exampleConfig probeState false) = _
    rw [heq, charCount_concatLines_nl _ hzero]
    simp [probeState]

/-- C9 as amended: the engine has exactly one border/row style — the plain
one — and its construction surface is only (key column, float precision,
row cap, colorize). The renderer never emits a box-drawing corner or
junction character (for inputs free of them); a row renders as space-joined
right-justified cells, wrapped in the level's ANSI color exactly when a
nonempty color code is present and colorizing is on, and bare when
colorizing is off; no divider-row interval exists. -/
theorem c9_single_plain_style (cfg : Config) (st : SinkState) (final : Bool)
    (c : Char) (hc : c ∈ ['╭', '┬', '╮', '├', '┼', '┤', '╰', '┴', '╯'])
    (hcols : ∀ col ∈ st.columns, charCount c col = 0)
    (hvals : ∀ rd ∈ st.rows.map Prod.snd, ∀ p ∈ rd,
      charCount c (formatValue cfg.float_precision p.2) = 0) :
    charCount c (renderTableString cfg st final) = 0
    ∧ (∀ (prec : Nat) (cols : List String) (data : List (String × Value))
        (w : String → Nat) (code : String),
        buildRow false prec cols data w code
          = " " ++ joinSep " " (cols.map fun col =>
              rjust (formatValue prec ((getEntry data col).getD (Value.vstr "")))
                (w col - 1) ++ " ") ++ " ")
    ∧ (∀ (prec : Nat) (cols : List String) (data : List (String × Value))
        (w : String → Nat) (code : String), code ≠ "" →
        buildRow true prec cols data w code
          = code ++ (" " ++ joinSep " " (cols.map fun col =>
              rjust (formatValue prec ((getEntry data col).getD (Value.vstr "")))
                (w col - 1) ++ " ") ++ " ") ++ RESET) := by
  refine ⟨?_, ?_, ?_⟩
  · exact charCount_render_zero cfg st final c
      (by fin_cases hc <;> decide) (by fin_cases hc <;> decide)
      (by fin_cases hc <;> decide) (boxfree_colorCode c hc)
      (by fin_cases hc <;> decide) hcols hvals
  · intro prec cols data w code
    simp [buildRow]
  · intro prec cols data w code hcode
    simp [buildRow, hcode]

/-- Witness for the amended C9 at the probe state: no `'╭'` in the output. -/
theorem c9_witness :
    charCount '╭' (renderTableString exampleConfig probeState false) = 0 := by
  have h := c9_single_plain_style exampleConfig probeState false '╭'
    (by decide) (by decide) (by decide)
  exact h.1

/-- Witness for C8: on the concrete one-row state rendered with the closing
border, the block has 3 + 1 + 1 = 5 lines. -/
theorem c8_witness :
    countNewlines (renderTableString exampleConfig exampleState true)
      = 3 + exampleState.row_order.length + 1 := by
  have h := c8_redraw_layout exampleConfig exampleState true (by decide) (by decide)
  simpa using h.2

/-- C5: when at least one row exists and the sink is not yet finalized,
`finish` marks it finalized and emits exactly one repaint of the table
rendered with the closing bottom border (`final = true`); otherwise it does
nothing. A second `finish` is a no-op (same state, no output), and every
ingestion on a finalized state returns the state unchanged with no output. -/
theorem c5_finish_semantics (cfg : Config) (st : SinkState) :
    (st.finished = false → st.rows ≠ [] →
        (finish cfg st).1.finished = true
        ∧ (finish cfg st).2
            = clearLines st.last_line_count
              ++ [TermOut.write (renderTableString cfg { st with finished := true } true),
                  TermOut.flush])
    ∧ (st.finished = true ∨ st.rows = [] → finish cfg st = (st, []))
    ∧ finish cfg (finish cfg st).1 = ((finish cfg st).1, [])
    ∧ (∀ msg : Record, ∀ st' : SinkState,
        st'.finished = true → call cfg st' msg = (st', [])) := by
  refine ⟨?_, ?_, ?_, fun msg st' h => call_of_finished h⟩
  · intro hf hr
    simp only [finish, if_pos (And.intro hf hr), renderTable_fst]
    exact ⟨trivial, rfl⟩
  · intro h
    have hneg : ¬ (st.finished = false ∧ st.rows ≠ []) := by
      rintro ⟨h1, h2⟩
      cases h with
      | inl hfin => rw [hfin] at h1; cases h1
      | inr hrows => exact h2 hrows
    simp only [finish, if_neg hneg]
  · by_cases hc : st.finished = false ∧ st.rows ≠ []
    · simp only [finish, if_pos hc, renderTable_fst]
      simp [finish]
    · have h1 : finish cfg st = (st, []) := by simp only [finish, if_neg hc]
      rw [h1]
      exact h1

/-- Witness for C10 on a concrete run with an insert, an update, an eviction
and a finish under cap 1. -/
theorem c10_witness :
    (∀ k : Value, k ∈ keysOf (runState exampleConfig initState exampleActs).rows
        ↔ k ∈ (runState exampleConfig initState exampleActs).row_order)
    ∧ (∀ k : Value, k ∈ keysOf (runState exampleConfig initState exampleActs).row_levels
        ↔ k ∈ (runState exampleConfig initState exampleActs).row_order)
    ∧ (runState exampleConfig initState exampleActs).row_order.Nodup :=
  c10_key_sets_agree exampleConfig
    (by intro m hm; simp [exampleConfig] at hm; omega) exampleActs

end TableSink
